import Mathlib

/-!
Verification development for the SlideMint slideshow rendering backend
(`src/backend/index.mjs`).

The JavaScript source is embedded shallowly:

* URLs are modelled by `UrlParts`, a record of scheme, host, pathname,
  search and fragment, each a `List Char`.  `parseURL` splits a raw
  character list the way the WHATWG `URL` class does for the
  `scheme://host/path?query#fragment` shape used by the backend
  (ports, userinfo and percent-encoding never occur in the eBay image
  URLs this code handles and are not modelled; the JS class lowercases
  scheme and host during parsing, which the model omits because every
  check in the source is case-insensitive).
* The regular-expression rewrites of `normalizeEbayUrl`, `forceVariant`
  and `toOriginal57` are implemented by `replaceTail`: each regex is
  anchored at the end of the pathname and its body cannot match `/`,
  so a match is exactly a match of the final path segment.
* Network fetches, image decoding and the two external ffmpeg
  invocations are oracles (`PipelineEnv`).  Slide durations are in
  integer microseconds, which is exact because the source serializes
  durations with `toFixed(6)`.
* `createSlideshow` returns its result together with a `RunTrace`
  recording the observable effects: slides attempted, the concat
  manifest written, every ffmpeg invocation with its codec, and the
  fate of the temporary directories.
-/

namespace Slidemint

/-- ASCII lower-casing of one character, the fragment of
`String.prototype.toLowerCase` relevant to URLs. -/
def lc : Char → Char
  | 'A' => 'a' | 'B' => 'b' | 'C' => 'c' | 'D' => 'd' | 'E' => 'e' | 'F' => 'f'
  | 'G' => 'g' | 'H' => 'h' | 'I' => 'i' | 'J' => 'j' | 'K' => 'k' | 'L' => 'l'
  | 'M' => 'm' | 'N' => 'n' | 'O' => 'o' | 'P' => 'p' | 'Q' => 'q' | 'R' => 'r'
  | 'S' => 's' | 'T' => 't' | 'U' => 'u' | 'V' => 'v' | 'W' => 'w' | 'X' => 'x'
  | 'Y' => 'y' | 'Z' => 'z' | c => c

/-- Lower-case a character list. -/
def lowerL (l : List Char) : List Char := l.map lc

/-- Characters of `l` strictly before the first occurrence of `stop`. -/
def takeUntil (stop : Char) : List Char → List Char
  | [] => []
  | c :: t => if c = stop then [] else c :: takeUntil stop t

/-- Suffix of `l` from the first occurrence of `stop` (inclusive);
empty when `stop` does not occur. -/
def dropUntil (stop : Char) : List Char → List Char
  | [] => []
  | c :: t => if c = stop then c :: t else dropUntil stop t

/-- Structured URL: `scheme://host` then pathname, search (with its
leading question mark) and fragment (with its leading hash mark). -/
structure UrlParts where
  scheme : List Char
  host : List Char
  pathname : List Char
  search : List Char
  frag : List Char
deriving DecidableEq

/-- Characters the URL class accepts after the first letter of a scheme. -/
def validSchemeChar (c : Char) : Bool :=
  c.isAlpha || c.isDigit || c = '+' || c = '-' || c = '.'

/-- Scheme shape accepted by the URL class: a letter then
letters, digits, `+`, `-` or `.`. -/
def validScheme : List Char → Bool
  | [] => false
  | c :: t => c.isAlpha && t.all validSchemeChar

/-- Split at the first occurrence of the literal `://`. -/
def breakOnSep : List Char → Option (List Char × List Char)
  | [] => none
  | c :: t =>
    if [':', '/', '/'].isPrefixOf (c :: t) then some ([], t.drop 2)
    else
      match breakOnSep t with
      | some (a, b) => some (c :: a, b)
      | none => none

/-- Model of `new URL(u)` for `scheme://host/path?query#fragment`
inputs: splits off the scheme at the first `://`, the fragment at the
first `#`, the search at the first `?`, and the host at the first `/`;
an absent path becomes `/`.  Returns `none` (the JS constructor throws)
when the scheme shape is invalid or the host is empty. -/
def parseURL (u : List Char) : Option UrlParts :=
  match breakOnSep u with
  | none => none
  | some (sch, rest) =>
    if validScheme sch = false then none
    else if takeUntil '/' (takeUntil '?' (takeUntil '#' rest)) = [] then none
    else some
      ⟨sch,
       takeUntil '/' (takeUntil '?' (takeUntil '#' rest)),
       if dropUntil '/' (takeUntil '?' (takeUntil '#' rest)) = [] then ['/']
       else dropUntil '/' (takeUntil '?' (takeUntil '#' rest)),
       dropUntil '?' (takeUntil '#' rest),
       dropUntil '#' rest⟩

/-- Model of `url.toString()`. -/
def urlToString (r : UrlParts) : List Char :=
  r.scheme ++ ':' :: '/' :: '/' :: (r.host ++ r.pathname ++ r.search ++ r.frag)

/-- Image extensions recognized by every resolution-token regex:
`(jpg|jpeg|png|webp)`. -/
def extList : List (List Char) := ["jpg".data, "jpeg".data, "png".data, "webp".data]

/-- Matches `.(jpg|jpeg|png|webp)` exactly to the end of the segment. -/
def isExtTail : List Char → Bool
  | '.' :: e => extList.contains e
  | _ => false

/-- Matches a (lower-cased) path segment of shape
`<tokStart><digits>.<ext>` anchored at both ends, exactly as the
regexes `/<tokStart>\d+\.(jpg|jpeg|png|webp)$/i` do within the final
path segment. -/
def matchSizeSeg (tokStart : List Char) (seg : List Char) : Bool :=
  tokStart.isPrefixOf seg &&
    !((seg.drop tokStart.length).takeWhile Char.isDigit).isEmpty &&
    isExtTail ((seg.drop tokStart.length).dropWhile Char.isDigit)

/-- Final path segment matching `s-l<digits>.<ext>` (case-insensitive). -/
def segSL (seg : List Char) : Bool := matchSizeSeg "s-l".data (lowerL seg)

/-- Final path segment matching `w<digits>.<ext>` (case-insensitive). -/
def segW (seg : List Char) : Bool := matchSizeSeg "w".data (lowerL seg)

/-- Final path segment matching `h<digits>.<ext>` (case-insensitive). -/
def segH (seg : List Char) : Bool := matchSizeSeg "h".data (lowerL seg)

/-- Final path segment matching `$_<digits>.<ext>` (case-insensitive). -/
def segDollar (seg : List Char) : Bool := matchSizeSeg "$_".data (lowerL seg)

/-- Split a pathname into the part before its last slash and the final
segment after it; `none` when the pathname has no slash. -/
def lastSlashSplit (p : List Char) : Option (List Char × List Char) :=
  match dropUntil '/' p.reverse with
  | [] => none
  | _ :: pre => some (pre.reverse, (takeUntil '/' p.reverse).reverse)

/-- One `pathname.replace(/\/<token>$/i, '/<repl>')` step: every token
regex is anchored at the end and its body cannot match `/`, so it
fires exactly when the final path segment matches `m`. -/
def replaceTail (m : List Char → Bool) (repl : List Char) (p : List Char) : List Char :=
  match lastSlashSplit p with
  | none => p
  | some (pre, seg) => if m seg then pre ++ '/' :: repl else p

/-- The pathname rewrite chain of `normalizeEbayUrl`
(index.mjs lines 245-249): `s-l\d+`, `w\d+`, `h\d+` and `$_\d+`
suffixes all become `s-l1600.jpg`. -/
def normPathRewrite (p : List Char) : List Char :=
  replaceTail segDollar "s-l1600.jpg".data
    (replaceTail segH "s-l1600.jpg".data
      (replaceTail segW "s-l1600.jpg".data
        (replaceTail segSL "s-l1600.jpg".data p)))

/-- The pathname rewrite chain of `toOriginal57`
(index.mjs lines 62-65): `s-l\d+`, `w\d+` and `h\d+` suffixes become
`$_57.jpg`. -/
def orig57Rewrite (p : List Char) : List Char :=
  replaceTail segH "$_57.jpg".data
    (replaceTail segW "$_57.jpg".data
      (replaceTail segSL "$_57.jpg".data p))

/-- Decimal digit to character. -/
def digitChar : Nat → Char
  | 0 => '0' | 1 => '1' | 2 => '2' | 3 => '3' | 4 => '4'
  | 5 => '5' | 6 => '6' | 7 => '7' | 8 => '8' | _ => '9'

/-- Decimal digits of `n`, fuelled so that the kernel can evaluate it. -/
def natCharsAux : Nat → Nat → List Char
  | _, 0 => []
  | n, fuel + 1 =>
    if n < 10 then [digitChar n]
    else natCharsAux (n / 10) fuel ++ [digitChar (n % 10)]

/-- Decimal representation of a natural number as characters. -/
def natChars (n : Nat) : List Char := natCharsAux n 10

/-- The pathname rewrite chain of `forceVariant`
(index.mjs lines 75-79): all four token suffixes become
`s-l<size>.jpg`. -/
def forceVariantRewrite (sizeDigits : List Char) (p : List Char) : List Char :=
  let repl := "s-l".data ++ sizeDigits ++ ".jpg".data
  replaceTail segDollar repl
    (replaceTail segH repl
      (replaceTail segW repl
        (replaceTail segSL repl p)))

/-- Model of `forceVariant(u, size)` (index.mjs lines 71-82): strip the
query, force the final segment to `s-l<size>.jpg`; on a URL parse
failure return the input unchanged. -/
def forceVariant (u : List Char) (size : Nat) : List Char :=
  match parseURL u with
  | none => u
  | some r =>
    urlToString { r with search := [], pathname := forceVariantRewrite (natChars size) r.pathname }

/-- Model of `toOriginal57(u)` (index.mjs lines 58-68): strip the
query, rewrite size tokens to the `$_57.jpg` original variant; on a
URL parse failure return the input unchanged. -/
def toOriginal57 (u : List Char) : List Char :=
  match parseURL u with
  | none => u
  | some r =>
    urlToString { r with search := [], pathname := orig57Rewrite r.pathname }

/-- Six-character window test for the legacy gallery path regex
`/\/\d{2}\/s\//i` at the head of the list. -/
def legacyAt : List Char → Bool
  | '/' :: a :: b :: '/' :: c :: '/' :: _ =>
    a.isDigit && b.isDigit && (c = 's' || c = 'S')
  | _ => false

/-- Whether `/\/\d{2}\/s\//i` matches anywhere in the pathname. -/
def hasLegacy : List Char → Bool
  | [] => false
  | c :: t => legacyAt (c :: t) || hasLegacy t

/-- Whether `pat` occurs contiguously inside the second list. -/
def infixB (pat : List Char) : List Char → Bool
  | [] => pat.isEmpty
  | c :: t => pat.isPrefixOf (c :: t) || infixB pat t

/-- Whether `/\/images\//i` matches anywhere in the pathname. -/
def hasImagesSeg (p : List Char) : Bool := infixB "/images/".data (lowerL p)

/-- Host test of `normalizeEbayUrl`: `/(^|\.)ebayimg\.com$/i`. -/
def hostOkB (h : List Char) : Bool :=
  lowerL h = "ebayimg.com".data || ('.' :: "ebayimg.com".data).isSuffixOf (lowerL h)

/-- Path-shape test of `normalizeEbayUrl` (index.mjs line 243). -/
def shapeOkB (p : List Char) : Bool := hasImagesSeg p || hasLegacy p

/-- Model of `normalizeEbayUrl` (index.mjs lines 239-252): accept only
eBay image CDN hosts with a gallery path shape, strip the query and
canonicalize the resolution token to `s-l1600.jpg`; reject everything
else with `none`. -/
def normalizeEbayUrl (u : List Char) : Option (List Char) :=
  match parseURL u with
  | none => none
  | some r =>
    if hostOkB r.host = false then none
    else if shapeOkB r.pathname = false then none
    else some (urlToString { r with search := [], pathname := normPathRewrite r.pathname })

/-- Deduplication key used by `cleanEbayImages`:
`new URL(n).pathname.toLowerCase()`.  The argument is always an output
of `normalizeEbayUrl`, hence re-parses successfully; the `[]` fallback
is unreachable. -/
def keyOf (n : List Char) : List Char :=
  match parseURL n with
  | some r => lowerL r.pathname
  | none => []

/-- Loop body of `cleanEbayImages` (index.mjs lines 254-268): normalize
each entry, skip rejects and already-seen dedup keys, and stop right
after the twelfth surviving URL is pushed. -/
def cleanGo : List (List Char) → List (List Char) → List (List Char) → List (List Char)
  | [], _, out => out
  | raw :: rest, seen, out =>
    match normalizeEbayUrl raw with
    | none => cleanGo rest seen out
    | some n =>
      if keyOf n ∈ seen then cleanGo rest seen out
      else if 12 ≤ out.length + 1 then out ++ [n]
      else cleanGo rest (keyOf n :: seen) (out ++ [n])

/-- Model of `cleanEbayImages` (index.mjs lines 254-268). -/
def cleanEbayImages (arr : List (List Char)) : List (List Char) := cleanGo arr [] []

/-- First-per-key deduplication, used to state what `cleanEbayImages`
computes before the cap of 12 is applied. -/
def dedupF : List (List Char) → List (List Char) → List (List Char)
  | [], _ => []
  | n :: rest, seen =>
    if keyOf n ∈ seen then dedupF rest seen
    else n :: dedupF rest (keyOf n :: seen)

/-- A fetched response body: its byte length and whether
`sharp(buf).metadata()` accepts it as an image. -/
structure Buffer where
  byteLength : Nat
  decodable : Bool
deriving DecidableEq

/-- The ladder of candidate URLs built by `buildCandidates`
(index.mjs lines 84-96): a descending size ladder chosen by the
legacy-path test, then the `$_57` original, then the re-serialized
original URL; just `[u]` when the URL does not parse. -/
def buildCandidates (u : List Char) : List (List Char) :=
  match parseURL u with
  | none => [u]
  | some r =>
    let sizes := if hasLegacy r.pathname then [1200, 1000, 800, 640, 500]
                 else [1600, 1200, 1000, 800, 500]
    sizes.map (forceVariant u) ++ [toOriginal57 u, urlToString r]

/-- One candidate attempt of `resolveImageBuffer` (index.mjs lines
102-108): fetch (timeout and HTTP errors are `none`), reject bodies
under `MIN_BYTES = 5000`, reject bodies sharp cannot decode. -/
def goodCandidate (fetch : List Char → Option Buffer) (cand : List Char) : Option Buffer :=
  match fetch cand with
  | none => none
  | some b =>
    if b.byteLength < 5000 then none
    else if b.decodable = false then none
    else some b

/-- The candidate loop of `resolveImageBuffer`: first success wins. -/
def resolveFrom (fetch : List Char → Option Buffer) : List (List Char) → Option (Buffer × List Char)
  | [] => none
  | c :: rest =>
    match goodCandidate fetch c with
    | some b => some (b, c)
    | none => resolveFrom fetch rest

/-- Model of `resolveImageBuffer` (index.mjs lines 99-111). -/
def resolveImageBuffer (fetch : List Char → Option Buffer) (u : List Char) :
    Option (Buffer × List Char) :=
  resolveFrom fetch (buildCandidates u)

/-- `Math.max` on the integer model. -/
def maxI (a b : ℤ) : ℤ := if a ≤ b then b else a

/-- JS `Number(v) || dflt` for an optional numeric `v`: an absent value
coerces to `NaN` and `0` is falsy, both falling back to `dflt`. -/
def numOr (v : Option ℤ) (dflt : ℤ) : ℤ :=
  match v with
  | none => dflt
  | some x => if x = 0 then dflt else x

/-- `DEFAULT_DURATION = 1.0` seconds, in microseconds. -/
def DEFAULT_DURATION_MICROS : ℤ := 1000000

/-- `MIN_DURATION = 0.5` seconds, in microseconds. -/
def MIN_DURATION_MICROS : ℤ := 500000

/-- `DEFAULT_LOOP_COUNT` with the environment override absent. -/
def DEFAULT_LOOP_COUNT : ℤ := 1

/-- Decimal digits of `i` left-padded with zeros to width 3,
as `String(i).padStart(3, '0')`. -/
def pad3 (n : Nat) : List Char :=
  let s := natChars n
  if s.length < 3 then List.replicate (3 - s.length) '0' ++ s else s

/-- Slide file name `slide-<i padded>.jpg` inside the job working
directory (the directory component is abstracted away). -/
def slideName (i : Nat) : List Char := "slide-".data ++ pad3 i ++ ".jpg".data

/-- The slide-preparation loop of `createSlideshow` (index.mjs lines
211-215): one `prepareSlideJpg` attempt per input image in order; a
slide file named by the original index is kept exactly when the
resolver ladder succeeds, failures are logged and skipped. -/
def prepSlides (fetch : List Char → Option Buffer) : Nat → List (List Char) → List (List Char)
  | _, [] => []
  | i, u :: rest =>
    if (resolveImageBuffer fetch u).isSome
    then slideName i :: prepSlides fetch (i + 1) rest
    else prepSlides fetch (i + 1) rest

/-- One line of the `ffconcat` manifest: the version header, a `file`
line, or a `duration` line (duration in microseconds, which
`toFixed(6)` serializes exactly). -/
inductive ConcatLine
  | header
  | fileLine (f : List Char)
  | durLine (micros : ℤ)
deriving DecidableEq

/-- Model of `writeConcatList` (index.mjs lines 127-133): header, then
a `file`/`duration` pair per slide in order, then the final slide
file repeated once without a duration. -/
def writeConcatList (slideFiles : List (List Char)) (durations : List ℤ) : List ConcatLine :=
  ConcatLine.header ::
    (((slideFiles.zip durations).map
        (fun fd => [ConcatLine.fileLine fd.1, ConcatLine.durLine fd.2])).flatten
      ++ [ConcatLine.fileLine (slideFiles.getLastD [])])

/-- An encoded MP4, abstracted to its playback duration. -/
structure Video where
  durationMicros : ℤ
deriving DecidableEq

/-- One external ffmpeg invocation: which video codec it was given
(`libx264` for the slide render, `copy` for the loop concat) and how
many concat entries it consumed. -/
structure FfmpegCall where
  codec : List Char
  inputEntries : Nat
deriving DecidableEq

/-- Oracles for the effectful collaborators of one render:
per-candidate network fetches, and the outcomes of the two external
ffmpeg invocations. -/
structure PipelineEnv where
  fetch : List Char → Option Buffer
  encodeOk : Bool
  loopConcatOk : Bool

/-- Observable effects of one `createSlideshow` run. -/
structure RunTrace where
  compositeAttempts : Nat
  manifest : Option (List ConcatLine)
  ffmpegCalls : List FfmpegCall
  onceDuration : Option ℤ
  stillsDirCreated : Bool
  stillsDirRemoved : Bool
  loopDirLeft : Bool
deriving DecidableEq

/-- Outcome of one `createSlideshow` run: a finished video or the
message of the thrown error. -/
inductive RenderResult
  | ok (video : Video)
  | err (msg : List Char)
deriving DecidableEq

/-- Result and trace of one `createSlideshow` run. -/
structure SlideshowResult where
  result : RenderResult
  trace : RunTrace
deriving DecidableEq

/-- Encode-and-loop tail of `createSlideshow` (index.mjs lines
218-232), after the per-slide duration `per` and the effective loop
count `times` have been computed: write the concat manifest, render a
single pass with libx264 (output duration = sum of the manifest
durations), then — only when `times > 1` — run one stream-copy
(`-c copy`) concat of the single-pass file repeated `times` times.
The `finally` block always removes the stills directory; the
loop-stage scratch directory is removed only after a successful
concat (`loopDirLeft` records the leak on concat failure). -/
def slideshowCore (env : PipelineEnv) (imagesLen : Nat) (slideFiles : List (List Char))
    (per : ℤ) (times : Nat) : SlideshowResult :=
  if env.encodeOk = false then
    { result := .err "ffmpeg exited with an error".data,
      trace := { compositeAttempts := imagesLen,
                 manifest := some (writeConcatList slideFiles (slideFiles.map (fun _ => per))),
                 ffmpegCalls := [{ codec := "libx264".data, inputEntries := slideFiles.length }],
                 onceDuration := none, stillsDirCreated := true, stillsDirRemoved := true,
                 loopDirLeft := false } }
  else if times = 1 then
    { result := RenderResult.ok { durationMicros := per * slideFiles.length },
      trace := { compositeAttempts := imagesLen,
                 manifest := some (writeConcatList slideFiles (slideFiles.map (fun _ => per))),
                 ffmpegCalls := [{ codec := "libx264".data, inputEntries := slideFiles.length }],
                 onceDuration := some (per * slideFiles.length),
                 stillsDirCreated := true, stillsDirRemoved := true, loopDirLeft := false } }
  else if env.loopConcatOk = false then
    { result := .err "ffmpeg concat exited with an error".data,
      trace := { compositeAttempts := imagesLen,
                 manifest := some (writeConcatList slideFiles (slideFiles.map (fun _ => per))),
                 ffmpegCalls := [{ codec := "libx264".data, inputEntries := slideFiles.length },
                                 { codec := "copy".data, inputEntries := times }],
                 onceDuration := some (per * slideFiles.length),
                 stillsDirCreated := true, stillsDirRemoved := true, loopDirLeft := true } }
  else
    { result := RenderResult.ok { durationMicros := (times : ℤ) * (per * slideFiles.length) },
      trace := { compositeAttempts := imagesLen,
                 manifest := some (writeConcatList slideFiles (slideFiles.map (fun _ => per))),
                 ffmpegCalls := [{ codec := "libx264".data, inputEntries := slideFiles.length },
                                 { codec := "copy".data, inputEntries := times }],
                 onceDuration := some (per * slideFiles.length),
                 stillsDirCreated := true, stillsDirRemoved := true, loopDirLeft := false } }

/-- Model of `createSlideshow` (index.mjs lines 202-236) together
with `renderFromSlides` and `loopMp4Copy`.  Control flow mirrors the
source: reject an empty image list before creating the working
directory; prepare slides, skipping per-image failures; throw
`All images failed to load` when no slide survived; otherwise run the
encode-and-loop tail with per-slide duration
`max(MIN_DURATION, Number(durationSec) || DEFAULT_DURATION)` and
effective loop count
`max(1, floor(max(1, Number(loopCount) || 1)))`. -/
def createSlideshow (env : PipelineEnv) (images : List (List Char))
    (durationSec loopCount : Option ℤ) : SlideshowResult :=
  if images = [] then
    { result := .err "No images provided".data,
      trace := { compositeAttempts := 0, manifest := none, ffmpegCalls := [],
                 onceDuration := none, stillsDirCreated := false,
                 stillsDirRemoved := false, loopDirLeft := false } }
  else if prepSlides env.fetch 0 images = [] then
    { result := .err "All images failed to load".data,
      trace := { compositeAttempts := images.length, manifest := none, ffmpegCalls := [],
                 onceDuration := none, stillsDirCreated := true,
                 stillsDirRemoved := true, loopDirLeft := false } }
  else
    slideshowCore env images.length (prepSlides env.fetch 0 images)
      (maxI MIN_DURATION_MICROS (numOr durationSec DEFAULT_DURATION_MICROS))
      ((maxI 1 (maxI 1 (numOr loopCount 1))).toNat)

/-- An entry of the in-memory `jobs` map. -/
structure JobRecord where
  status : List Char
  url : Option (List Char)
  errMsg : Option (List Char)
deriving DecidableEq

/-- `PUBLIC_BASE_URL` with the environment override absent. -/
def PUBLIC_BASE_URL : List Char := "https://slidemint-api.onrender.com".data

/-- Output file name `video-<id>.mp4`. -/
def videoFilename (id : List Char) : List Char := "video-".data ++ id ++ ".mp4".data

/-- Public URL of a finished job video. -/
def videoUrlFor (id : List Char) : List Char :=
  PUBLIC_BASE_URL ++ "/videos/".data ++ videoFilename id

/-- Final state and effects of one `runJob` (index.mjs lines 347-365).
`encoderKills` counts kill signals sent to the external encoder
process; the source retains no child-process handle and never sends
one, so it is always zero. -/
structure JobOutcome where
  record : JobRecord
  trace : RunTrace
  encoderKills : Nat
deriving DecidableEq

/-- Model of `runJob` (index.mjs lines 347-365): run the slideshow
race against the `JOB_LIMIT_MS` timer (`timedOut` says the timer fired
first); on a timeout the record becomes
`{status:'error', error:'TIME_LIMIT'}` regardless of pipeline
progress, otherwise the record reflects the slideshow result.  The
abandoned pipeline keeps running, so its trace effects stand in
either case. -/
def runJob (env : PipelineEnv) (jobId : List Char) (images : List (List Char))
    (duration loopCount : Option ℤ) (timedOut : Bool) : JobOutcome :=
  { record :=
      if timedOut then
        { status := "error".data, url := none, errMsg := some "TIME_LIMIT".data }
      else
        match (createSlideshow env images (some (duration.getD DEFAULT_DURATION_MICROS))
                (some (loopCount.getD DEFAULT_LOOP_COUNT))).result with
        | .ok _ => { status := "done".data, url := some (videoUrlFor jobId), errMsg := none }
        | .err e => { status := "error".data, url := none, errMsg := some e },
    trace := (createSlideshow env images (some (duration.getD DEFAULT_DURATION_MICROS))
                (some (loopCount.getD DEFAULT_LOOP_COUNT))).trace,
    encoderKills := 0 }

/-- HTTP projection returned by the poll endpoint. -/
structure PollResponse where
  statusCode : Nat
  ok : Bool
  status : List Char
  url : Option (List Char)
  errMsg : Option (List Char)
deriving DecidableEq

/-- Model of `GET /jobs/:id` (index.mjs lines 386-406): serve the
in-memory record when present; otherwise report `done` with the
recoverable URL when `video-<id>.mp4` exists on disk (`fileOnDisk`
returns `none` when `existsSync` throws, which falls through); else
report `queued`.  Every branch answers HTTP 200. -/
def jobsGet (jobs : List (List Char × JobRecord)) (fileOnDisk : List Char → Option Bool)
    (id : List Char) : PollResponse :=
  match jobs.lookup id with
  | some j => { statusCode := 200, ok := true, status := j.status, url := j.url, errMsg := j.errMsg }
  | none =>
    match fileOnDisk (videoFilename id) with
    | some true =>
      { statusCode := 200, ok := true, status := "done".data,
        url := some (videoUrlFor id), errMsg := none }
    | _ => { statusCode := 200, ok := true, status := "queued".data, url := none, errMsg := none }

/-- A representative eBay gallery image URL, used as a concrete test
fixture. -/
def sampleUrl : List Char := "https://i.ebayimg.com/images/g/a/s-l500.jpg".data

/-- Parsed form of `sampleUrl`. -/
def sampleParts : UrlParts :=
  ⟨"https".data, "i.ebayimg.com".data, "/images/g/a/s-l500.jpg".data, [], []⟩

/-- Fetch oracle for which every candidate URL fails. -/
def fetchNothing : List Char → Option Buffer := fun _ => none

/-- Fetch oracle for which every candidate URL returns a decodable
6000-byte image. -/
def fetchEverything : List Char → Option Buffer := fun _ => some ⟨6000, true⟩

/-- Fetch oracle for which only the third ladder rung (the 1000-pixel
variant of `sampleUrl`) is reachable. -/
def fetchThirdRung : List Char → Option Buffer :=
  fun c => if c = forceVariant sampleUrl 1000 then some ⟨6000, true⟩ else none

/-- Environment in which every image resolves and both ffmpeg
invocations succeed. -/
def envOk : PipelineEnv := ⟨fetchEverything, true, true⟩

/-- Environment in which no image resolves. -/
def envAllFail : PipelineEnv := ⟨fetchNothing, true, true⟩

/-- Concrete URL pair differing only in resolution token and query. -/
def c2u : List Char := "https://i.ebayimg.com/images/g/a/s-l500.jpg?x=1".data

/-- Second member of the concrete pair: same gallery path, `w99` token,
no query. -/
def c2v : List Char := "https://i.ebayimg.com/images/g/a/w99.jpg".data

/-- An unrelated third gallery URL. -/
def c2other : List Char := "https://i.ebayimg.com/images/g/b/s-l1600.jpg".data

/-- Concrete submission list containing the pair and one other URL. -/
def c2arr : List (List Char) := [c2u, c2other, c2v]

/-- The common normalized form of `c2u` and `c2v`. -/
def c2n : List Char := "https://i.ebayimg.com/images/g/a/s-l1600.jpg".data

/-- Parsed form of `c2u`. -/
def c2ru : UrlParts :=
  ⟨"https".data, "i.ebayimg.com".data, "/images/g/a/s-l500.jpg".data, "?x=1".data, []⟩

/-- Parsed form of `c2v`. -/
def c2rv : UrlParts :=
  ⟨"https".data, "i.ebayimg.com".data, "/images/g/a/w99.jpg".data, [], []⟩

/-- The behavioural contract of the resolver ladder: `none` exactly
when every candidate fails, and a successful result is the first
candidate that passes the byte threshold and decodes, returned
together with that winning candidate URL. -/
def ResolverSpec (fetch : List Char → Option Buffer) (u : List Char) : Prop :=
  (resolveImageBuffer fetch u = none ↔
    ∀ c ∈ buildCandidates u, goodCandidate fetch c = none) ∧
  (∀ b c, resolveImageBuffer fetch u = some (b, c) →
    ∃ i : Nat, (buildCandidates u)[i]? = some c ∧ goodCandidate fetch c = some b ∧
      ∀ j : Nat, j < i → ∀ c', (buildCandidates u)[j]? = some c' →
        goodCandidate fetch c' = none)

/-- A final path segment carrying a recognized resolution token: any
of the four shapes rewritten by `normalizeEbayUrl`. -/
def isResSeg (seg : List Char) : Bool :=
  segSL seg || segW seg || segH seg || segDollar seg

/-- Well-formedness facts guaranteed for every record produced by
`parseURL`, exactly what is needed for `urlToString` to parse back to
the same record. -/
structure WfUrl (r : UrlParts) : Prop where
  scheme_valid : validScheme r.scheme = true
  host_ne : r.host ≠ []
  host_clean : ∀ c ∈ r.host, c ≠ '/' ∧ c ≠ '?' ∧ c ≠ '#'
  path_head : ∃ t, r.pathname = '/' :: t
  path_clean : ∀ c ∈ r.pathname, c ≠ '?' ∧ c ≠ '#'
  search_shape : r.search = [] ∨ ∃ t, r.search = '?' :: t
  search_clean : ∀ c ∈ r.search, c ≠ '#'
  frag_shape : r.frag = [] ∨ ∃ t, r.frag = '#' :: t

/-- Two raw URLs whose only difference is the resolution token of the
final path segment and/or the query string: both parse, agree on
scheme, host and fragment, and their pathnames share the directory
part while ending in (possibly different) recognized resolution
tokens.  The query strings are unconstrained. -/
def DiffByToken (u v : List Char) : Prop :=
  ∃ ru rv pre t1 t2,
    parseURL u = some ru ∧ parseURL v = some rv ∧
    ru.scheme = rv.scheme ∧ ru.host = rv.host ∧ ru.frag = rv.frag ∧
    ru.pathname = pre ++ '/' :: t1 ∧ rv.pathname = pre ++ '/' :: t2 ∧
    '/' ∉ t1 ∧ '/' ∉ t2 ∧ isResSeg t1 = true ∧ isResSeg t2 = true

end Slidemint

namespace Slidemint

/-! ## Supporting lemmas -/

theorem takeUntil_append_dropUntil (s : Char) (l : List Char) :
    takeUntil s l ++ dropUntil s l = l := by
  induction l with
  | nil => rfl
  | cons c t ih =>
    by_cases h : c = s
    · simp [takeUntil, dropUntil, h]
    · simp [takeUntil, dropUntil, h, ih]

theorem mem_takeUntil (s : Char) {c : Char} {l : List Char}
    (h : c ∈ takeUntil s l) : c ∈ l ∧ c ≠ s := by
  induction l with
  | nil => simp [takeUntil] at h
  | cons a t ih =>
    by_cases ha : a = s
    · simp [takeUntil, ha] at h
    · simp only [takeUntil, if_neg ha] at h
      rcases List.mem_cons.mp h with rfl | h2
      · exact ⟨List.mem_cons_self _ _, ha⟩
      · obtain ⟨h3, h4⟩ := ih h2
        exact ⟨List.mem_cons_of_mem _ h3, h4⟩

theorem takeUntil_append_left {s : Char} {xs : List Char} (h : s ∉ xs) (ys : List Char) :
    takeUntil s (xs ++ ys) = xs ++ takeUntil s ys := by
  induction xs with
  | nil => rfl
  | cons a t ih =>
    have ha : a ≠ s := fun hc => h (hc ▸ List.mem_cons_self a t)
    have ht : s ∉ t := fun hc => h (List.mem_cons_of_mem a hc)
    simp [takeUntil, Ne.symm ha, ha, ih ht]

theorem dropUntil_append_left {s : Char} {xs : List Char} (h : s ∉ xs) (ys : List Char) :
    dropUntil s (xs ++ ys) = dropUntil s ys := by
  induction xs with
  | nil => rfl
  | cons a t ih =>
    have ha : a ≠ s := fun hc => h (hc ▸ List.mem_cons_self a t)
    have ht : s ∉ t := fun hc => h (List.mem_cons_of_mem a hc)
    simp [dropUntil, ha, ih ht]

theorem takeUntil_of_not_mem {s : Char} {l : List Char} (h : s ∉ l) : takeUntil s l = l := by
  have h2 := takeUntil_append_left h ([] : List Char)
  simpa [takeUntil] using h2

theorem dropUntil_of_not_mem {s : Char} {l : List Char} (h : s ∉ l) : dropUntil s l = [] := by
  have h2 := dropUntil_append_left h ([] : List Char)
  simpa using h2

theorem takeUntil_cons_self (s : Char) (t : List Char) : takeUntil s (s :: t) = [] := by
  simp [takeUntil]

theorem dropUntil_cons_self (s : Char) (t : List Char) : dropUntil s (s :: t) = s :: t := by
  simp [dropUntil]

theorem dropUntil_shape (s : Char) (l : List Char) :
    dropUntil s l = [] ∨ ∃ t, dropUntil s l = s :: t := by
  induction l with
  | nil => left; rfl
  | cons a t ih =>
    by_cases ha : a = s
    · right
      subst ha
      exact ⟨t, by simp [dropUntil]⟩
    · simpa [dropUntil, ha] using ih

theorem mem_dropUntil (s : Char) {c : Char} {l : List Char} (h : c ∈ dropUntil s l) : c ∈ l := by
  have h2 := takeUntil_append_dropUntil s l
  rw [← h2]
  exact List.mem_append_right _ h

theorem lastSlashSplit_app {seg : List Char} (pre : List Char) (h : '/' ∉ seg) :
    lastSlashSplit (pre ++ '/' :: seg) = some (pre, seg) := by
  unfold lastSlashSplit
  have hrev : (pre ++ '/' :: seg).reverse = seg.reverse ++ '/' :: pre.reverse := by simp
  have hs : '/' ∉ seg.reverse := by simpa using h
  rw [hrev, dropUntil_append_left hs, dropUntil_cons_self,
    takeUntil_append_left hs, takeUntil_cons_self]
  simp

theorem lastSlashSplit_sound {p pre seg : List Char}
    (h : lastSlashSplit p = some (pre, seg)) : p = pre ++ '/' :: seg ∧ '/' ∉ seg := by
  unfold lastSlashSplit at h
  cases hd : dropUntil '/' p.reverse with
  | nil =>
    rw [hd] at h
    exact absurd h (by simp)
  | cons x pre0 =>
    rw [hd] at h
    injection h with h
    have hx : x = '/' := by
      rcases dropUntil_shape '/' p.reverse with h0 | ⟨t, ht⟩
      · rw [h0] at hd; cases hd
      · rw [ht] at hd
        injection hd with h1 h2
        exact h1.symm
    have hpre : pre0.reverse = pre := congrArg Prod.fst h
    have hseg : (takeUntil '/' p.reverse).reverse = seg := congrArg Prod.snd h
    constructor
    · have happ := takeUntil_append_dropUntil '/' p.reverse
      rw [hd, hx] at happ
      have hp : p = (takeUntil '/' p.reverse ++ '/' :: pre0).reverse := by
        rw [happ, List.reverse_reverse]
      rw [hp]
      simp [hpre, hseg]
    · intro hc
      rw [← hseg, List.mem_reverse] at hc
      exact (mem_takeUntil '/' hc).2 rfl

theorem replaceTail_fire {m : List Char → Bool} {rep pre seg : List Char}
    (hs : '/' ∉ seg) (hm : m seg = true) :
    replaceTail m rep (pre ++ '/' :: seg) = pre ++ '/' :: rep := by
  unfold replaceTail
  rw [lastSlashSplit_app pre hs]
  simp [hm]

theorem replaceTail_skip {m : List Char → Bool} {rep pre seg : List Char}
    (hs : '/' ∉ seg) (hm : m seg = false) :
    replaceTail m rep (pre ++ '/' :: seg) = pre ++ '/' :: seg := by
  unfold replaceTail
  rw [lastSlashSplit_app pre hs]
  simp [hm]

theorem replaceTail_nosplit {m : List Char → Bool} {rep p : List Char}
    (h : lastSlashSplit p = none) : replaceTail m rep p = p := by
  unfold replaceTail
  rw [h]

theorem rep1600_not_slash : '/' ∉ "s-l1600.jpg".data := by decide

theorem segSL_rep1600 : segSL "s-l1600.jpg".data = true := by decide

theorem segW_rep1600 : segW "s-l1600.jpg".data = false := by decide

theorem segH_rep1600 : segH "s-l1600.jpg".data = false := by decide

theorem segDollar_rep1600 : segDollar "s-l1600.jpg".data = false := by decide

theorem isResSeg_rep1600 : isResSeg "s-l1600.jpg".data = true := by decide

theorem normPathRewrite_fire {pre t : List Char} (hs : '/' ∉ t) (hres : isResSeg t = true) :
    normPathRewrite (pre ++ '/' :: t) = pre ++ '/' :: "s-l1600.jpg".data := by
  unfold normPathRewrite
  by_cases h1 : segSL t = true
  · rw [replaceTail_fire hs h1, replaceTail_skip rep1600_not_slash segW_rep1600,
      replaceTail_skip rep1600_not_slash segH_rep1600,
      replaceTail_skip rep1600_not_slash segDollar_rep1600]
  · have h1f : segSL t = false := by revert h1; cases segSL t <;> simp
    rw [replaceTail_skip hs h1f]
    by_cases h2 : segW t = true
    · rw [replaceTail_fire hs h2, replaceTail_skip rep1600_not_slash segH_rep1600,
        replaceTail_skip rep1600_not_slash segDollar_rep1600]
    · have h2f : segW t = false := by revert h2; cases segW t <;> simp
      rw [replaceTail_skip hs h2f]
      by_cases h3 : segH t = true
      · rw [replaceTail_fire hs h3, replaceTail_skip rep1600_not_slash segDollar_rep1600]
      · have h3f : segH t = false := by revert h3; cases segH t <;> simp
        rw [replaceTail_skip hs h3f]
        have h4 : segDollar t = true := by
          unfold isResSeg at hres
          rw [h1f, h2f, h3f] at hres
          simpa using hres
        rw [replaceTail_fire hs h4]

theorem normPathRewrite_skip {pre t : List Char} (hs : '/' ∉ t) (hres : isResSeg t = false) :
    normPathRewrite (pre ++ '/' :: t) = pre ++ '/' :: t := by
  obtain ⟨⟨⟨h1, h2⟩, h3⟩, h4⟩ :
      ((segSL t = false ∧ segW t = false) ∧ segH t = false) ∧ segDollar t = false := by
    simpa [isResSeg, Bool.or_eq_false_iff] using hres
  unfold normPathRewrite
  rw [replaceTail_skip hs h1, replaceTail_skip hs h2,
    replaceTail_skip hs h3, replaceTail_skip hs h4]

theorem normPathRewrite_nosplit {p : List Char} (h : lastSlashSplit p = none) :
    normPathRewrite p = p := by
  unfold normPathRewrite
  rw [replaceTail_nosplit h, replaceTail_nosplit h, replaceTail_nosplit h,
    replaceTail_nosplit h]

theorem normPathRewrite_spec (p : List Char) :
    normPathRewrite p = p ∨
    ∃ pre seg, p = pre ++ '/' :: seg ∧ '/' ∉ seg ∧ isResSeg seg = true ∧
      normPathRewrite p = pre ++ '/' :: "s-l1600.jpg".data := by
  cases hls : lastSlashSplit p with
  | none => exact Or.inl (normPathRewrite_nosplit hls)
  | some ps =>
    obtain ⟨pre, seg⟩ := ps
    obtain ⟨hp, hs⟩ := lastSlashSplit_sound hls
    by_cases hres : isResSeg seg = true
    · exact Or.inr ⟨pre, seg, hp, hs, hres, by rw [hp]; exact normPathRewrite_fire hs hres⟩
    · have hresf : isResSeg seg = false := by revert hres; cases isResSeg seg <;> simp
      refine Or.inl ?_
      rw [hp]
      exact normPathRewrite_skip hs hresf

theorem normPathRewrite_idem (p : List Char) :
    normPathRewrite (normPathRewrite p) = normPathRewrite p := by
  rcases normPathRewrite_spec p with h | ⟨pre, seg, hp, hs, hres, h⟩
  · rw [h]
    exact h
  · rw [h, normPathRewrite_fire rep1600_not_slash isResSeg_rep1600]

theorem lc_slash : lc '/' = '/' := rfl

theorem lc_ne_slash {c : Char} (h : c ≠ '/') : lc c ≠ '/' := by
  unfold lc
  split <;> simp_all

theorem not_mem_lowerL_slash {t : List Char} (h : '/' ∉ t) : '/' ∉ lowerL t := by
  intro hc
  rw [lowerL, List.mem_map] at hc
  obtain ⟨c, hct, hlc⟩ := hc
  by_cases hcs : c = '/'
  · exact h (hcs ▸ hct)
  · exact lc_ne_slash hcs hlc

theorem bool_eq_of_true_iff {a b : Bool} (h : a = true ↔ b = true) : a = b := by
  cases a <;> cases b <;> simp_all

theorem infixB_iff (pat l : List Char) : infixB pat l = true ↔ pat <:+: l := by
  induction l with
  | nil =>
    cases pat with
    | nil => simp [infixB]
    | cons c t =>
      simp only [infixB, List.isEmpty_cons]
      constructor
      · intro h
        exact absurd h (by simp)
      · intro h
        obtain ⟨sx, tx, hst⟩ := h
        exact absurd hst.symm (by simp)
  | cons a t ih =>
    simp only [infixB, Bool.or_eq_true, List.isPrefixOf_iff_prefix, ih, List.infix_cons_iff]

theorem infix_slash_transfer {q pre tok : List Char} (htok : '/' ∉ tok) :
    ((q ++ ['/']) <:+: (pre ++ '/' :: tok)) ↔ ((q ++ ['/']) <:+: (pre ++ ['/'])) := by
  have hsplit : pre ++ '/' :: tok = (pre ++ ['/']) ++ tok := by simp
  constructor
  · intro h
    rw [hsplit] at h
    obtain ⟨s, t, hst⟩ := h
    rcases le_or_lt tok.length t.length with hle | hlt
    · have hpf1 : s ++ (q ++ ['/']) <+: (pre ++ ['/']) ++ tok := ⟨t, hst⟩
      have hpf2 : (pre ++ ['/']) <+: (pre ++ ['/']) ++ tok := List.prefix_append _ _
      rcases List.prefix_or_prefix_of_prefix hpf1 hpf2 with hc | hc
      · obtain ⟨t2, ht2⟩ := hc
        exact ⟨s, t2, ht2⟩
      · have hlen : (s ++ (q ++ ['/'])).length + t.length =
            (pre ++ ['/']).length + tok.length := by
          have hl := congrArg List.length hst
          simp only [List.length_append, List.length_cons, List.length_nil] at hl ⊢
          omega
        have hle2 : (pre ++ ['/']).length ≤ (s ++ (q ++ ['/'])).length := hc.length_le
        have heq : (pre ++ ['/']).length = (s ++ (q ++ ['/'])).length := by
          simp only [List.length_append, List.length_cons, List.length_nil] at hlen hle2 ⊢
          omega
        have heq2 := hc.eq_of_length heq
        exact ⟨s, [], by rw [List.append_nil, ← heq2]⟩
    · exfalso
      have hsfx : ('/' :: t) <:+ (pre ++ ['/']) ++ tok := by
        refine ⟨s ++ q, ?_⟩
        rw [← hst]
        simp
      have hsfx2 : tok <:+ (pre ++ ['/']) ++ tok := List.suffix_append _ _
      rcases List.suffix_or_suffix_of_suffix hsfx hsfx2 with hc | hc
      · exact htok (hc.subset (List.mem_cons_self _ _))
      · have hlen2 := hc.length_le
        have heq : tok.length = ('/' :: t).length := by
          simp only [List.length_cons] at hlen2 ⊢
          omega
        have heq2 := hc.eq_of_length heq
        exact htok (heq2 ▸ List.mem_cons_self '/' t)
  · intro h
    rw [hsplit]
    exact h.trans (List.prefix_append _ _).isInfix

theorem legacyAt_iff (l : List Char) :
    legacyAt l = true ↔
      ∃ a b c t, a.isDigit = true ∧ b.isDigit = true ∧ (c = 's' ∨ c = 'S') ∧
        l = '/' :: a :: b :: '/' :: c :: '/' :: t := by
  constructor
  · intro h
    unfold legacyAt at h
    split at h
    · rename_i a b c rest
      simp only [Bool.and_eq_true, Bool.or_eq_true, decide_eq_true_eq] at h
      exact ⟨a, b, c, rest, h.1.1, h.1.2, h.2, rfl⟩
    · exact absurd h (by simp)
  · rintro ⟨a, b, c, t, h1, h2, h3, rfl⟩
    simp only [legacyAt, Bool.and_eq_true, Bool.or_eq_true, decide_eq_true_eq]
    rcases h3 with rfl | rfl
    · exact ⟨⟨h1, h2⟩, Or.inl rfl⟩
    · exact ⟨⟨h1, h2⟩, Or.inr rfl⟩

theorem hasLegacy_iff (l : List Char) :
    hasLegacy l = true ↔
      ∃ a b c, a.isDigit = true ∧ b.isDigit = true ∧ (c = 's' ∨ c = 'S') ∧
        ('/' :: a :: b :: '/' :: c :: '/' :: []) <:+: l := by
  induction l with
  | nil =>
    simp only [hasLegacy]
    constructor
    · intro h
      exact absurd h (by simp)
    · rintro ⟨a, b, c, h1, h2, h3, hinf⟩
      obtain ⟨sx, tx, hst⟩ := hinf
      exact absurd hst.symm (by simp)
  | cons x t ih =>
    simp only [hasLegacy, Bool.or_eq_true, ih, legacyAt_iff]
    constructor
    · rintro (⟨a, b, c, rest, h1, h2, h3, heq⟩ | ⟨a, b, c, h1, h2, h3, hinf⟩)
      · refine ⟨a, b, c, h1, h2, h3, ?_⟩
        rw [heq]
        exact ⟨[], rest, rfl⟩
      · exact ⟨a, b, c, h1, h2, h3, hinf.trans (List.suffix_cons x t).isInfix⟩
    · rintro ⟨a, b, c, h1, h2, h3, hinf⟩
      rcases List.infix_cons_iff.mp hinf with hpfx | hinf2
      · left
        obtain ⟨rest, hrest⟩ := hpfx
        exact ⟨a, b, c, rest, h1, h2, h3, hrest.symm⟩
      · right
        exact ⟨a, b, c, h1, h2, h3, hinf2⟩

theorem lowerL_seg_split (pre t : List Char) :
    lowerL (pre ++ '/' :: t) = lowerL pre ++ '/' :: lowerL t := by
  simp [lowerL, lc_slash]

theorem hasImagesSeg_transfer {pre t1 t2 : List Char} (h1 : '/' ∉ t1) (h2 : '/' ∉ t2) :
    hasImagesSeg (pre ++ '/' :: t1) = hasImagesSeg (pre ++ '/' :: t2) := by
  apply bool_eq_of_true_iff
  unfold hasImagesSeg
  rw [infixB_iff, infixB_iff, lowerL_seg_split, lowerL_seg_split]
  have hpat : "/images/".data = "/images".data ++ ['/'] := rfl
  rw [hpat]
  exact (infix_slash_transfer (not_mem_lowerL_slash h1)).trans
    (infix_slash_transfer (not_mem_lowerL_slash h2)).symm

theorem hasLegacy_transfer {pre t1 t2 : List Char} (h1 : '/' ∉ t1) (h2 : '/' ∉ t2) :
    hasLegacy (pre ++ '/' :: t1) = hasLegacy (pre ++ '/' :: t2) := by
  apply bool_eq_of_true_iff
  rw [hasLegacy_iff, hasLegacy_iff]
  constructor
  · rintro ⟨a, b, c, ha, hb, hc, hinf⟩
    refine ⟨a, b, c, ha, hb, hc, ?_⟩
    have hpat : ('/' :: a :: b :: '/' :: c :: '/' :: ([] : List Char)) =
        ('/' :: a :: b :: '/' :: c :: []) ++ ['/'] := rfl
    rw [hpat] at hinf ⊢
    exact (infix_slash_transfer h2).mpr ((infix_slash_transfer h1).mp hinf)
  · rintro ⟨a, b, c, ha, hb, hc, hinf⟩
    refine ⟨a, b, c, ha, hb, hc, ?_⟩
    have hpat : ('/' :: a :: b :: '/' :: c :: '/' :: ([] : List Char)) =
        ('/' :: a :: b :: '/' :: c :: []) ++ ['/'] := rfl
    rw [hpat] at hinf ⊢
    exact (infix_slash_transfer h1).mpr ((infix_slash_transfer h2).mp hinf)

theorem shapeOkB_transfer {pre t1 t2 : List Char} (h1 : '/' ∉ t1) (h2 : '/' ∉ t2) :
    shapeOkB (pre ++ '/' :: t1) = shapeOkB (pre ++ '/' :: t2) := by
  unfold shapeOkB
  rw [hasImagesSeg_transfer h1 h2, hasLegacy_transfer h1 h2]

theorem validSchemeChar_ne_colon {c : Char} (h : validSchemeChar c = true) : c ≠ ':' := by
  intro hc
  subst hc
  exact absurd h (by decide)

theorem isAlpha_ne_colon {c : Char} (h : c.isAlpha = true) : c ≠ ':' := by
  intro hc
  subst hc
  exact absurd h (by decide)

theorem validScheme_no_colon {sch : List Char} (h : validScheme sch = true) :
    ∀ c ∈ sch, c ≠ ':' := by
  cases sch with
  | nil => intro c hc; simp at hc
  | cons a t =>
    simp only [validScheme, Bool.and_eq_true, List.all_eq_true] at h
    intro c hc
    rcases List.mem_cons.mp hc with rfl | hct
    · exact isAlpha_ne_colon h.1
    · exact validSchemeChar_ne_colon (h.2 c hct)

theorem breakOnSep_append {pre : List Char} (suf : List Char) (h : ∀ c ∈ pre, c ≠ ':') :
    breakOnSep (pre ++ ':' :: '/' :: '/' :: suf) = some (pre, suf) := by
  induction pre with
  | nil =>
    simp only [List.nil_append]
    unfold breakOnSep
    rw [if_pos (by simp [List.isPrefixOf_iff_prefix])]
    rfl
  | cons a t ih =>
    have ha : a ≠ ':' := h a (List.mem_cons_self a t)
    have ht : ∀ c ∈ t, c ≠ ':' := fun c hc => h c (List.mem_cons_of_mem a hc)
    have hpre : ¬([':', '/', '/'].isPrefixOf (a :: (t ++ ':' :: '/' :: '/' :: suf)) = true) := by
      intro hc
      obtain ⟨t2, ht2⟩ := List.isPrefixOf_iff_prefix.mp hc
      injection ht2 with h1 h2
      exact ha h1.symm
    simp only [List.cons_append]
    unfold breakOnSep
    rw [if_neg hpre, ih ht]

theorem parse_wf {u : List Char} {r : UrlParts} (h : parseURL u = some r) : WfUrl r := by
  unfold parseURL at h
  split at h
  · cases h
  · rename_i x0 sch rest heq
    by_cases hv : validScheme sch = false
    · rw [if_pos hv] at h; cases h
    · rw [if_neg hv] at h
      by_cases hh : takeUntil '/' (takeUntil '?' (takeUntil '#' rest)) = []
      · rw [if_pos hh] at h; cases h
      · rw [if_neg hh] at h
        injection h with h
        subst h
        have hvt : validScheme sch = true := by
          revert hv; cases validScheme sch <;> simp
        refine ⟨hvt, hh, ?_, ?_, ?_, ?_, ?_, ?_⟩
        · intro c hc
          obtain ⟨hc2, hslash⟩ := mem_takeUntil '/' hc
          obtain ⟨hc3, hq⟩ := mem_takeUntil '?' hc2
          obtain ⟨hc4, hhash⟩ := mem_takeUntil '#' hc3
          exact ⟨hslash, hq, hhash⟩
        · by_cases hp : dropUntil '/' (takeUntil '?' (takeUntil '#' rest)) = []
          · rw [if_pos hp]
            exact ⟨[], rfl⟩
          · rw [if_neg hp]
            rcases dropUntil_shape '/' (takeUntil '?' (takeUntil '#' rest)) with h0 | ⟨t0, ht0⟩
            · exact absurd h0 hp
            · exact ⟨t0, ht0⟩
        · intro c hc
          by_cases hp : dropUntil '/' (takeUntil '?' (takeUntil '#' rest)) = []
          · rw [if_pos hp] at hc
            rcases List.mem_singleton.mp hc with rfl
            exact ⟨by decide, by decide⟩
          · rw [if_neg hp] at hc
            have hc2 := mem_dropUntil '/' hc
            obtain ⟨hc3, hq⟩ := mem_takeUntil '?' hc2
            obtain ⟨hc4, hhash⟩ := mem_takeUntil '#' hc3
            exact ⟨hq, hhash⟩
        · rcases dropUntil_shape '?' (takeUntil '#' rest) with h0 | ⟨t0, ht0⟩
          · exact Or.inl h0
          · exact Or.inr ⟨t0, ht0⟩
        · intro c hc
          have hc2 := mem_dropUntil '?' hc
          exact (mem_takeUntil '#' hc2).2
        · rcases dropUntil_shape '#' rest with h0 | ⟨t0, ht0⟩
          · exact Or.inl h0
          · exact Or.inr ⟨t0, ht0⟩

theorem urlToString_parse {r : UrlParts} (w : WfUrl r) : parseURL (urlToString r) = some r := by
  obtain ⟨t0, hpath⟩ := w.path_head
  have hnm1 : '#' ∉ r.host ++ r.pathname ++ r.search := by
    intro hc
    rcases List.mem_append.mp hc with hc2 | hc3
    · rcases List.mem_append.mp hc2 with hc4 | hc5
      · exact (w.host_clean _ hc4).2.2 rfl
      · exact (w.path_clean _ hc5).2 rfl
    · exact w.search_clean _ hc3 rfl
  have hnm2 : '?' ∉ r.host ++ r.pathname := by
    intro hc
    rcases List.mem_append.mp hc with hc2 | hc3
    · exact (w.host_clean _ hc2).2.1 rfl
    · exact (w.path_clean _ hc3).1 rfl
  have hnm3 : '/' ∉ r.host := by
    intro hc
    exact (w.host_clean _ hc).1 rfl
  have hX1 : takeUntil '#' (r.host ++ r.pathname ++ r.search ++ r.frag) =
      r.host ++ r.pathname ++ r.search := by
    rw [takeUntil_append_left hnm1]
    rcases w.frag_shape with hf | ⟨tf, hf⟩
    · rw [hf]
      simp [takeUntil]
    · rw [hf, takeUntil_cons_self]
      simp
  have hHash : dropUntil '#' (r.host ++ r.pathname ++ r.search ++ r.frag) = r.frag := by
    rw [dropUntil_append_left hnm1]
    rcases w.frag_shape with hf | ⟨tf, hf⟩
    · rw [hf]; rfl
    · rw [hf, dropUntil_cons_self]
  have hX2 : takeUntil '?' (r.host ++ r.pathname ++ r.search) = r.host ++ r.pathname := by
    rw [takeUntil_append_left hnm2]
    rcases w.search_shape with hs | ⟨ts, hs⟩
    · rw [hs]
      simp [takeUntil]
    · rw [hs, takeUntil_cons_self]
      simp
  have hSearch : dropUntil '?' (r.host ++ r.pathname ++ r.search) = r.search := by
    rw [dropUntil_append_left hnm2]
    rcases w.search_shape with hs | ⟨ts, hs⟩
    · rw [hs]; rfl
    · rw [hs, dropUntil_cons_self]
  have hHost : takeUntil '/' (r.host ++ r.pathname) = r.host := by
    rw [takeUntil_append_left hnm3, hpath, takeUntil_cons_self]
    simp
  have hPath : dropUntil '/' (r.host ++ r.pathname) = r.pathname := by
    rw [dropUntil_append_left hnm3, hpath, dropUntil_cons_self]
  have hb : breakOnSep (urlToString r) =
      some (r.scheme, r.host ++ r.pathname ++ r.search ++ r.frag) := by
    unfold urlToString
    rw [breakOnSep_append _ (validScheme_no_colon w.scheme_valid)]
  unfold parseURL
  rw [hb]
  have hassoc : r.host ++ r.pathname ++ r.search ++ r.frag =
      (r.host ++ r.pathname ++ r.search) ++ r.frag := by
    simp [List.append_assoc]
  rw [hassoc] at hX1 hHash
  simp only [hX1, hX2, hHost, hPath, hSearch, hHash]
  rw [if_neg (by rw [w.scheme_valid]; simp), if_neg w.host_ne,
    if_neg (by rw [hpath]; simp)]


theorem prepSlides_nil_of_all_fail {fetch : List Char → Option Buffer}
    {images : List (List Char)}
    (hall : ∀ u ∈ images, resolveImageBuffer fetch u = none) :
    ∀ i, prepSlides fetch i images = [] := by
  induction images with
  | nil => intro i; rfl
  | cons u rest ih =>
    intro i
    have hu : resolveImageBuffer fetch u = none := hall u (List.mem_cons_self u rest)
    have hrest : ∀ v ∈ rest, resolveImageBuffer fetch v = none :=
      fun v hv => hall v (List.mem_cons_of_mem u hv)
    simp [prepSlides, hu, ih hrest]

theorem prepSlides_ne_nil_images_ne_nil {fetch : List Char → Option Buffer}
    {images : List (List Char)} (h : prepSlides fetch 0 images ≠ []) :
    images ≠ [] := by
  intro hcon
  subst hcon
  exact h rfl

theorem zip_map_const {α β : Type} (l : List α) (b : β) :
    l.zip (l.map fun _ => b) = l.map fun a => (a, b) := by
  induction l with
  | nil => rfl
  | cons a t ih => simp only [List.map_cons, List.zip_cons_cons, ih]

theorem writeConcatList_const (files : List (List Char)) (per : ℤ) :
    writeConcatList files (files.map fun _ => per) =
      ConcatLine.header ::
        ((files.map fun f => [ConcatLine.fileLine f, ConcatLine.durLine per]).flatten
          ++ [ConcatLine.fileLine (files.getLastD [])]) := by
  unfold writeConcatList
  rw [zip_map_const, List.map_map]
  rfl

theorem resolveFrom_eq_none_iff (fetch : List Char → Option Buffer) (l : List (List Char)) :
    resolveFrom fetch l = none ↔ ∀ c ∈ l, goodCandidate fetch c = none := by
  induction l with
  | nil => simp [resolveFrom]
  | cons c rest ih =>
    unfold resolveFrom
    cases hg : goodCandidate fetch c with
    | some b => simp [hg]
    | none => simp [hg, ih]

theorem resolveFrom_eq_some (fetch : List Char → Option Buffer) (l : List (List Char))
    (b : Buffer) (c : List Char) (h : resolveFrom fetch l = some (b, c)) :
    ∃ i : Nat, l[i]? = some c ∧ goodCandidate fetch c = some b ∧
      ∀ j : Nat, j < i → ∀ c', l[j]? = some c' → goodCandidate fetch c' = none := by
  induction l with
  | nil => simp [resolveFrom] at h
  | cons a rest ih =>
    unfold resolveFrom at h
    cases hg : goodCandidate fetch a with
    | some b0 =>
      rw [hg] at h
      have hb : b0 = b ∧ a = c := by
        injection h with h'
        exact ⟨congrArg Prod.fst h', congrArg Prod.snd h'⟩
      refine ⟨0, ?_, ?_, ?_⟩
      · simp [hb.2]
      · rw [← hb.1, ← hb.2]; exact hg
      · intro j hj; omega
    | none =>
      rw [hg] at h
      obtain ⟨i, h1, h2, h3⟩ := ih h
      refine ⟨i + 1, by simpa using h1, h2, ?_⟩
      intro j hj c' hc'
      cases j with
      | zero =>
        simp at hc'
        rw [← hc']; exact hg
      | succ j' =>
        exact h3 j' (by omega) c' (by simpa using hc')

theorem goodCandidate_iff (fetch : List Char → Option Buffer) (c : List Char) (b : Buffer) :
    goodCandidate fetch c = some b ↔
      fetch c = some b ∧ 5000 ≤ b.byteLength ∧ b.decodable = true := by
  cases hf : fetch c with
  | none => simp [goodCandidate, hf]
  | some b0 =>
    simp only [goodCandidate, hf]
    constructor
    · intro h
      by_cases h5 : b0.byteLength < 5000
      · rw [if_pos h5] at h
        exact absurd h (by simp)
      · rw [if_neg h5] at h
        by_cases hd : b0.decodable = false
        · rw [if_pos hd] at h
          exact absurd h (by simp)
        · rw [if_neg hd] at h
          injection h with h
          subst h
          refine ⟨rfl, by omega, ?_⟩
          revert hd
          cases b0.decodable <;> simp
    · rintro ⟨hb, h5, hdec⟩
      injection hb with hb
      subst hb
      rw [if_neg (by omega), if_neg (by simp [hdec])]

theorem normalizeEbayUrl_eq_some {u : List Char} {r : UrlParts} (hp : parseURL u = some r)
    (hh : hostOkB r.host = true) (hs : shapeOkB r.pathname = true) :
    normalizeEbayUrl u =
      some (urlToString { r with search := [], pathname := normPathRewrite r.pathname }) := by
  simp only [normalizeEbayUrl, hp]
  rw [if_neg (by rw [hh]; simp), if_neg (by rw [hs]; simp)]

theorem normalizeEbayUrl_inv {u n : List Char} (h : normalizeEbayUrl u = some n) :
    ∃ r, parseURL u = some r ∧ hostOkB r.host = true ∧ shapeOkB r.pathname = true ∧
      n = urlToString { r with search := [], pathname := normPathRewrite r.pathname } := by
  unfold normalizeEbayUrl at h
  split at h
  · cases h
  · rename_i x0 r heq
    by_cases hh : hostOkB r.host = false
    · rw [if_pos hh] at h; cases h
    · rw [if_neg hh] at h
      by_cases hs : shapeOkB r.pathname = false
      · rw [if_pos hs] at h; cases h
      · rw [if_neg hs] at h
        injection h with h
        refine ⟨r, heq, ?_, ?_, h.symm⟩
        · revert hh; cases hostOkB r.host <;> simp
        · revert hs; cases shapeOkB r.pathname <;> simp

theorem rep1600_clean : ∀ c ∈ "s-l1600.jpg".data, c ≠ '?' ∧ c ≠ '#' := by decide

theorem wf_norm_output {r : UrlParts} (w : WfUrl r) :
    WfUrl { r with search := [], pathname := normPathRewrite r.pathname } := by
  obtain ⟨t0, hpath⟩ := w.path_head
  rcases normPathRewrite_spec r.pathname with hid | ⟨pre, seg, hp, hsl, hres, hrw⟩
  · refine ⟨w.scheme_valid, w.host_ne, w.host_clean, ?_, ?_, Or.inl rfl, ?_, w.frag_shape⟩
    · exact ⟨t0, by rw [hid, hpath]⟩
    · intro c hc
      have hc2 : c ∈ normPathRewrite r.pathname := hc
      rw [hid] at hc2
      exact w.path_clean c hc2
    · intro c hc
      have hc2 : c ∈ ([] : List Char) := hc
      cases hc2
  · refine ⟨w.scheme_valid, w.host_ne, w.host_clean, ?_, ?_, Or.inl rfl, ?_, w.frag_shape⟩
    · cases pre with
      | nil => exact ⟨"s-l1600.jpg".data, by rw [hrw]; rfl⟩
      | cons c0 pre0 =>
        have hc0 : c0 = '/' := by
          have h2 : '/' :: t0 = c0 :: (pre0 ++ '/' :: seg) := by
            rw [← hpath, hp]
            rfl
          injection h2 with h3
          exact h3.symm
        refine ⟨pre0 ++ '/' :: "s-l1600.jpg".data, ?_⟩
        rw [hrw, hc0]
        rfl
    · intro c hc
      have hc2 : c ∈ normPathRewrite r.pathname := hc
      rw [hrw] at hc2
      rcases List.mem_append.mp hc2 with hcp | hcr
      · have : c ∈ r.pathname := by
          rw [hp]
          exact List.mem_append_left _ hcp
        exact w.path_clean c this
      · rcases List.mem_cons.mp hcr with rfl | hcr2
        · exact ⟨by decide, by decide⟩
        · exact rep1600_clean c hcr2
    · intro c hc
      have hc2 : c ∈ ([] : List Char) := hc
      cases hc2

theorem diffByToken_normalize_eq {u v n : List Char} (hd : DiffByToken u v)
    (h : normalizeEbayUrl u = some n) : normalizeEbayUrl v = some n := by
  obtain ⟨ru, rv, pre, t1, t2, hpu, hpv, hsch, hhost, hfrag, hpath1, hpath2,
    hs1, hs2, hr1, hr2⟩ := hd
  obtain ⟨r, hp, hh, hs, hn⟩ := normalizeEbayUrl_inv h
  have hru : ru = r := by
    rw [hpu] at hp
    injection hp
  subst hru
  have hhv : hostOkB rv.host = true := by
    rw [← hhost]
    exact hh
  have hsv : shapeOkB rv.pathname = true := by
    rw [hpath2, shapeOkB_transfer hs2 hs1, ← hpath1]
    exact hs
  have hfinal := normalizeEbayUrl_eq_some hpv hhv hsv
  have hrw1 : normPathRewrite ru.pathname = pre ++ '/' :: "s-l1600.jpg".data := by
    rw [hpath1]
    exact normPathRewrite_fire hs1 hr1
  have hrw2 : normPathRewrite rv.pathname = pre ++ '/' :: "s-l1600.jpg".data := by
    rw [hpath2]
    exact normPathRewrite_fire hs2 hr2
  have hrec : UrlParts.mk rv.scheme rv.host (normPathRewrite rv.pathname) [] rv.frag =
      UrlParts.mk ru.scheme ru.host (normPathRewrite ru.pathname) [] ru.frag := by
    rw [hrw1, hrw2, hsch, hhost, hfrag]
  rw [hfinal]
  exact (congrArg (fun rr => some (urlToString rr)) hrec).trans (congrArg some hn.symm)

theorem dedupF_sublist (l : List (List Char)) : ∀ seen, (dedupF l seen).Sublist l := by
  induction l with
  | nil => intro seen; simp [dedupF]
  | cons n rest ih =>
    intro seen
    unfold dedupF
    by_cases h : keyOf n ∈ seen
    · rw [if_pos h]
      exact (ih seen).trans (List.sublist_cons_self n rest)
    · rw [if_neg h]
      exact (ih _).cons₂ n

theorem dedupF_not_mem_seen {l : List (List Char)} :
    ∀ {seen}, ∀ w ∈ dedupF l seen, keyOf w ∉ seen := by
  induction l with
  | nil => intro seen w hw; simp [dedupF] at hw
  | cons n rest ih =>
    intro seen w hw
    unfold dedupF at hw
    by_cases h : keyOf n ∈ seen
    · rw [if_pos h] at hw
      exact ih w hw
    · rw [if_neg h] at hw
      rcases List.mem_cons.mp hw with rfl | hw2
      · exact h
      · have h2 := ih w hw2
        exact fun hc => h2 (List.mem_cons_of_mem _ hc)

theorem dedupF_pairwise (l : List (List Char)) : ∀ seen,
    (dedupF l seen).Pairwise (fun a b => keyOf a ≠ keyOf b) := by
  induction l with
  | nil => intro seen; simp [dedupF]
  | cons n rest ih =>
    intro seen
    unfold dedupF
    by_cases h : keyOf n ∈ seen
    · rw [if_pos h]
      exact ih seen
    · rw [if_neg h]
      refine List.Pairwise.cons ?_ (ih _)
      intro w hw hc
      have h2 := dedupF_not_mem_seen w hw
      apply h2
      rw [← hc]
      exact List.mem_cons_self _ _

theorem dedupF_find {l : List (List Char)} :
    ∀ {seen}, ∀ w ∈ dedupF l seen, l.find? (fun x => keyOf x == keyOf w) = some w := by
  induction l with
  | nil => intro seen w hw; simp [dedupF] at hw
  | cons n rest ih =>
    intro seen w hw
    unfold dedupF at hw
    by_cases h : keyOf n ∈ seen
    · rw [if_pos h] at hw
      have hne : (keyOf n == keyOf w) = false := by
        rw [beq_eq_false_iff_ne]
        intro hc
        exact dedupF_not_mem_seen w hw (hc ▸ h)
      simp only [List.find?_cons, hne]
      exact ih w hw
    · rw [if_neg h] at hw
      rcases List.mem_cons.mp hw with rfl | hw2
      · simp [List.find?_cons]
      · have hnotin := dedupF_not_mem_seen w hw2
        have hne : (keyOf n == keyOf w) = false := by
          rw [beq_eq_false_iff_ne]
          intro hc
          apply hnotin
          rw [← hc]
          exact List.mem_cons_self _ _
        simp only [List.find?_cons, hne]
        exact ih w hw2

theorem dedupF_exists_key {l : List (List Char)} :
    ∀ {seen} {k : List Char}, k ∉ seen → k ∈ l.map keyOf →
      ∃ w ∈ dedupF l seen, keyOf w = k := by
  induction l with
  | nil => intro seen k hk hmem; simp at hmem
  | cons n rest ih =>
    intro seen k hk hmem
    have hmem2 : k = keyOf n ∨ k ∈ rest.map keyOf := by
      simpa [List.mem_cons] using hmem
    unfold dedupF
    by_cases h : keyOf n ∈ seen
    · rw [if_pos h]
      rcases hmem2 with heq | hrest
      · exact absurd (heq ▸ h) hk
      · exact ih hk hrest
    · rw [if_neg h]
      by_cases hkn : k = keyOf n
      · exact ⟨n, List.mem_cons_self _ _, hkn.symm⟩
      · rcases hmem2 with heq | hrest
        · exact absurd heq hkn
        · have hk2 : k ∉ keyOf n :: seen := by
            intro hc
            rcases List.mem_cons.mp hc with hc1 | hc2
            · exact hkn hc1
            · exact hk hc2
          obtain ⟨w, hw1, hw2⟩ := ih hk2 hrest
          exact ⟨w, List.mem_cons_of_mem _ hw1, hw2⟩

theorem cleanGo_eq (arr : List (List Char)) : ∀ (seen out : List (List Char)),
    out.length < 12 →
    cleanGo arr seen out =
      out ++ (dedupF (arr.filterMap normalizeEbayUrl) seen).take (12 - out.length) := by
  induction arr with
  | nil =>
    intro seen out h
    simp [cleanGo, dedupF]
  | cons raw rest ih =>
    intro seen out hlen
    cases hn : normalizeEbayUrl raw with
    | none =>
      have hlhs : cleanGo (raw :: rest) seen out = cleanGo rest seen out := by
        simp only [cleanGo, hn]
      have hrhs : (raw :: rest).filterMap normalizeEbayUrl =
          rest.filterMap normalizeEbayUrl := by
        simp [List.filterMap_cons, hn]
      rw [hlhs, hrhs]
      exact ih seen out hlen
    | some n =>
      have hrhs : (raw :: rest).filterMap normalizeEbayUrl =
          n :: rest.filterMap normalizeEbayUrl := by
        simp [List.filterMap_cons, hn]
      rw [hrhs]
      simp only [cleanGo, hn]
      by_cases hseen : keyOf n ∈ seen
      · rw [if_pos hseen]
        have hd2 : dedupF (n :: rest.filterMap normalizeEbayUrl) seen =
            dedupF (rest.filterMap normalizeEbayUrl) seen := by
          simp only [dedupF]
          rw [if_pos hseen]
        rw [hd2]
        exact ih seen out hlen
      · rw [if_neg hseen]
        have hd2 : dedupF (n :: rest.filterMap normalizeEbayUrl) seen =
            n :: dedupF (rest.filterMap normalizeEbayUrl) (keyOf n :: seen) := by
          simp only [dedupF]
          rw [if_neg hseen]
        rw [hd2]
        by_cases hcap : 12 ≤ out.length + 1
        · rw [if_pos hcap]
          have h11 : out.length = 11 := by omega
          rw [h11]
          norm_num
        · rw [if_neg hcap]
          have hlen2 : (out ++ [n]).length < 12 := by
            simp only [List.length_append, List.length_cons, List.length_nil]
            omega
          rw [ih (keyOf n :: seen) (out ++ [n]) hlen2]
          have h12 : 12 - out.length = (12 - (out ++ [n]).length) + 1 := by
            simp only [List.length_append, List.length_cons, List.length_nil]
            omega
          rw [h12, List.take_succ_cons]
          simp [List.append_assoc]

theorem countP_le_one_of_pairwise {l : List (List Char)} {k : List Char}
    (h : l.Pairwise (fun a b => keyOf a ≠ keyOf b)) :
    l.countP (fun w => keyOf w == k) ≤ 1 := by
  induction l with
  | nil => simp
  | cons a t ih =>
    rw [List.countP_cons]
    obtain ⟨hhead, htail⟩ := List.pairwise_cons.mp h
    by_cases ha : keyOf a = k
    · have h0 : t.countP (fun w => keyOf w == k) = 0 := by
        rw [List.countP_eq_zero]
        intro b hb
        simp only [beq_iff_eq]
        intro hc
        exact hhead b hb (by rw [ha, hc])
      simp [h0, ha]
    · have hb : ((fun w => keyOf w == k) a = true) = False := by
        simp [ha]
      simp only [hb, if_false]
      have := ih htail
      omega

theorem countP_eq_one_of_mem_pairwise {l : List (List Char)} {k w : List Char}
    (h : l.Pairwise (fun a b => keyOf a ≠ keyOf b)) (hw : w ∈ l) (hk : keyOf w = k) :
    l.countP (fun x => keyOf x == k) = 1 := by
  have h1 : 0 < l.countP (fun x => keyOf x == k) := by
    rw [List.countP_pos_iff]
    exact ⟨w, hw, by simp [hk]⟩
  have h2 := countP_le_one_of_pairwise (k := k) h
  omega

/-! ## Claim theorems -/

/-- Claim C1: a render job whose image list yields zero successfully
resolved images ends with the job record in the error state with
reason `All images failed to load`; `createSlideshow` throws that
error before any concat manifest is written, and ffmpeg is never
invoked. -/
theorem c1_all_fail_no_encoder (env : PipelineEnv) (jobId : List Char)
    (images : List (List Char)) (duration loopCount : Option ℤ)
    (hne : images ≠ [])
    (hall : ∀ u ∈ images, resolveImageBuffer env.fetch u = none) :
    (runJob env jobId images duration loopCount false).record =
      ⟨"error".data, none, some "All images failed to load".data⟩ ∧
    (createSlideshow env images (some (duration.getD DEFAULT_DURATION_MICROS))
        (some (loopCount.getD DEFAULT_LOOP_COUNT))).result =
      .err "All images failed to load".data ∧
    (runJob env jobId images duration loopCount false).trace.manifest = none ∧
    (runJob env jobId images duration loopCount false).trace.ffmpegCalls = [] := by
  have hslides := prepSlides_nil_of_all_fail hall 0
  have hcs : createSlideshow env images (some (duration.getD DEFAULT_DURATION_MICROS))
      (some (loopCount.getD DEFAULT_LOOP_COUNT)) =
      { result := .err "All images failed to load".data,
        trace := { compositeAttempts := images.length, manifest := none, ffmpegCalls := [],
                   onceDuration := none, stillsDirCreated := true,
                   stillsDirRemoved := true, loopDirLeft := false } } := by
    unfold createSlideshow
    rw [if_neg hne, if_pos hslides]
  refine ⟨?_, ?_, ?_, ?_⟩ <;> simp [runJob, hcs]

/-- Claim C1 witness. -/
theorem c1_witness :
    (([sampleUrl] : List (List Char)) ≠ []) ∧
    (∀ u ∈ [sampleUrl], resolveImageBuffer envAllFail.fetch u = none) ∧
    ((runJob envAllFail "job1".data [sampleUrl] none none false).record =
        ⟨"error".data, none, some "All images failed to load".data⟩ ∧
      (createSlideshow envAllFail [sampleUrl] (some ((none : Option ℤ).getD DEFAULT_DURATION_MICROS))
          (some ((none : Option ℤ).getD DEFAULT_LOOP_COUNT))).result =
        .err "All images failed to load".data ∧
      (runJob envAllFail "job1".data [sampleUrl] none none false).trace.manifest = none ∧
      (runJob envAllFail "job1".data [sampleUrl] none none false).trace.ffmpegCalls = []) :=
  ⟨by decide,
   by intro u hu; rw [List.mem_singleton] at hu; subst hu; decide,
   c1_all_fail_no_encoder envAllFail "job1".data [sampleUrl] none none (by decide)
     (by intro u hu; rw [List.mem_singleton] at hu; subst hu; decide)⟩

/-- Claim C4 counterexample: with a requested per-slide duration of
`0` (a falsy JS number), the manifest entry carries the default
duration `1.0 s`, not `max(minDurationSeconds, 0) = 0.5 s`, so the
claim as stated fails at requested duration 0. -/
theorem c4_counterexample :
    (createSlideshow envOk [sampleUrl] (some 0) none).trace.manifest =
      some [ConcatLine.header, ConcatLine.fileLine (slideName 0),
            ConcatLine.durLine DEFAULT_DURATION_MICROS,
            ConcatLine.fileLine (slideName 0)] ∧
    DEFAULT_DURATION_MICROS ≠ maxI MIN_DURATION_MICROS 0 := by decide

/-- Claim C4 (amended): for every job with at least one surviving
slide and a nonzero requested per-slide duration `d`, the concat
manifest is exactly the header, then one `(file, duration)` pair per
surviving slide in slide order with every duration equal to
`max(minDurationSeconds, d)`, then the final slide file repeated once
without a duration field.  (A falsy requested duration — `0` or
absent — is first replaced by the default `1.0 s`.) -/
theorem c4_manifest_entries (env : PipelineEnv) (images : List (List Char)) (d : ℤ)
    (loopCount : Option ℤ) (hd : d ≠ 0)
    (hK : prepSlides env.fetch 0 images ≠ []) :
    (createSlideshow env images (some d) loopCount).trace.manifest =
      some (ConcatLine.header ::
        (((prepSlides env.fetch 0 images).map
            (fun f => [ConcatLine.fileLine f,
                       ConcatLine.durLine (maxI MIN_DURATION_MICROS d)])).flatten
          ++ [ConcatLine.fileLine ((prepSlides env.fetch 0 images).getLastD [])])) := by
  have hne := prepSlides_ne_nil_images_ne_nil hK
  have hnum : numOr (some d) DEFAULT_DURATION_MICROS = d := by simp [numOr, hd]
  have hcore : createSlideshow env images (some d) loopCount =
      slideshowCore env images.length (prepSlides env.fetch 0 images)
        (maxI MIN_DURATION_MICROS d) ((maxI 1 (maxI 1 (numOr loopCount 1))).toNat) := by
    unfold createSlideshow
    rw [if_neg hne, if_neg hK, hnum]
  rw [hcore]
  unfold slideshowCore
  have hw := writeConcatList_const (prepSlides env.fetch 0 images) (maxI MIN_DURATION_MICROS d)
  repeat' split
  all_goals rw [writeConcatList_const]

/-- Claim C4 witness (for the amended statement). -/
theorem c4_witness :
    ((2000000 : ℤ) ≠ 0) ∧ (prepSlides envOk.fetch 0 [sampleUrl] ≠ []) ∧
    (createSlideshow envOk [sampleUrl] (some 2000000) none).trace.manifest =
      some (ConcatLine.header ::
        (((prepSlides envOk.fetch 0 [sampleUrl]).map
            (fun f => [ConcatLine.fileLine f,
                       ConcatLine.durLine (maxI MIN_DURATION_MICROS 2000000)])).flatten
          ++ [ConcatLine.fileLine ((prepSlides envOk.fetch 0 [sampleUrl]).getLastD [])])) :=
  ⟨by decide, by decide,
   c4_manifest_entries envOk [sampleUrl] 2000000 none (by decide) (by decide)⟩

/-- Claim C5: for an integer loop count `L > 1` on a job with at
least one surviving slide and successful encodes, the finished
single-pass MP4 is concatenated with itself `L` times by one ffmpeg
invocation running codec `copy` (no re-encode) over `L` concat
entries; compositing is attempted exactly once per input image (the
same count as a single-loop run), the slide render itself runs once,
and the looped output duration is exactly `L` times the single-pass
duration. -/
theorem c5_loop_copy_duration (env : PipelineEnv) (images : List (List Char))
    (d : Option ℤ) (L : ℕ) (hL : 2 ≤ L)
    (hK : prepSlides env.fetch 0 images ≠ [])
    (henc : env.encodeOk = true) (hloop : env.loopConcatOk = true) :
    (createSlideshow env images d (some (L : ℤ))).result =
      .ok ⟨(L : ℤ) * (maxI MIN_DURATION_MICROS (numOr d DEFAULT_DURATION_MICROS) *
            (prepSlides env.fetch 0 images).length)⟩ ∧
    (createSlideshow env images d (some (L : ℤ))).trace.onceDuration =
      some (maxI MIN_DURATION_MICROS (numOr d DEFAULT_DURATION_MICROS) *
            (prepSlides env.fetch 0 images).length) ∧
    (createSlideshow env images d (some (L : ℤ))).trace.ffmpegCalls =
      [⟨"libx264".data, (prepSlides env.fetch 0 images).length⟩, ⟨"copy".data, L⟩] ∧
    (createSlideshow env images d (some (L : ℤ))).trace.compositeAttempts = images.length ∧
    (createSlideshow env images d (some 1)).trace.compositeAttempts = images.length := by
  have hne := prepSlides_ne_nil_images_ne_nil hK
  have hLz : (L : ℤ) ≠ 0 := by
    have h0 : (0 : ℤ) < (L : ℤ) := by exact_mod_cast (by omega : 0 < L)
    omega
  have hnum : numOr (some (L : ℤ)) 1 = (L : ℤ) := by simp [numOr, hLz]
  have hmaxL : maxI 1 (L : ℤ) = (L : ℤ) := by
    unfold maxI
    rw [if_pos]
    exact_mod_cast (by omega : 1 ≤ L)
  have htimes : (maxI 1 (maxI 1 (numOr (some (L : ℤ)) 1))).toNat = L := by
    rw [hnum, hmaxL, hmaxL, Int.toNat_natCast]
  have hcore : createSlideshow env images d (some (L : ℤ)) =
      slideshowCore env images.length (prepSlides env.fetch 0 images)
        (maxI MIN_DURATION_MICROS (numOr d DEFAULT_DURATION_MICROS)) L := by
    unfold createSlideshow
    rw [if_neg hne, if_neg hK, htimes]
  have hT1 : (maxI 1 (maxI 1 (numOr (some (1 : ℤ)) 1))).toNat = 1 := by decide
  have hcore1 : createSlideshow env images d (some 1) =
      slideshowCore env images.length (prepSlides env.fetch 0 images)
        (maxI MIN_DURATION_MICROS (numOr d DEFAULT_DURATION_MICROS)) 1 := by
    unfold createSlideshow
    rw [if_neg hne, if_neg hK, hT1]
  have hencF : ¬(env.encodeOk = false) := by simp [henc]
  have hL1 : ¬(L = 1) := by omega
  have hloopF : ¬(env.loopConcatOk = false) := by simp [hloop]
  refine ⟨?_, ?_, ?_, ?_, ?_⟩
  · rw [hcore]; unfold slideshowCore; rw [if_neg hencF, if_neg hL1, if_neg hloopF]
  · rw [hcore]; unfold slideshowCore; rw [if_neg hencF, if_neg hL1, if_neg hloopF]
  · rw [hcore]; unfold slideshowCore; rw [if_neg hencF, if_neg hL1, if_neg hloopF]
  · rw [hcore]; unfold slideshowCore; rw [if_neg hencF, if_neg hL1, if_neg hloopF]
  · rw [hcore1]; unfold slideshowCore; rw [if_neg hencF, if_pos rfl]

/-- Claim C5 witness. -/
theorem c5_witness :
    (2 ≤ 3) ∧ (prepSlides envOk.fetch 0 [sampleUrl] ≠ []) ∧
    (envOk.encodeOk = true) ∧ (envOk.loopConcatOk = true) ∧
    ((createSlideshow envOk [sampleUrl] none (some ((3 : ℕ) : ℤ))).result =
      .ok ⟨((3 : ℕ) : ℤ) * (maxI MIN_DURATION_MICROS (numOr none DEFAULT_DURATION_MICROS) *
            (prepSlides envOk.fetch 0 [sampleUrl]).length)⟩ ∧
    (createSlideshow envOk [sampleUrl] none (some ((3 : ℕ) : ℤ))).trace.onceDuration =
      some (maxI MIN_DURATION_MICROS (numOr none DEFAULT_DURATION_MICROS) *
            (prepSlides envOk.fetch 0 [sampleUrl]).length) ∧
    (createSlideshow envOk [sampleUrl] none (some ((3 : ℕ) : ℤ))).trace.ffmpegCalls =
      [⟨"libx264".data, (prepSlides envOk.fetch 0 [sampleUrl]).length⟩, ⟨"copy".data, 3⟩] ∧
    (createSlideshow envOk [sampleUrl] none (some ((3 : ℕ) : ℤ))).trace.compositeAttempts =
      [sampleUrl].length ∧
    (createSlideshow envOk [sampleUrl] none (some 1)).trace.compositeAttempts =
      [sampleUrl].length) :=
  ⟨by omega, by decide, rfl, rfl,
   c5_loop_copy_duration envOk [sampleUrl] none 3 (by omega) (by decide) rfl rfl⟩

/-- Claim C6: on every exit path of `createSlideshow` — successful
return, per-image compositing failure, the all-images-failed error,
or an encoder failure — the job-private temporary stills directory
created at the start of the run has been removed by the time control
returns (the `finally` block runs on every path). -/
theorem c6_stills_dir_cleanup (env : PipelineEnv) (images : List (List Char))
    (durationSec loopCount : Option ℤ) :
    ((createSlideshow env images durationSec loopCount).trace.stillsDirCreated &&
      !(createSlideshow env images durationSec loopCount).trace.stillsDirRemoved) = false := by
  unfold createSlideshow slideshowCore
  repeat' split
  all_goals rfl

/-- Claim C7 counterexample: on a run whose wall-clock budget is
exceeded, the job record does transition to the error state with the
distinct reason `TIME_LIMIT`, but zero kill signals are sent to the
external encoder process — `runJob` retains no child-process handle,
so the encoder is abandoned, not forcefully terminated, refuting the
claim as stated. -/
theorem c7_counterexample :
    (runJob envOk "job1".data [sampleUrl] none none true).record =
      ⟨"error".data, none, some "TIME_LIMIT".data⟩ ∧
    (runJob envOk "job1".data [sampleUrl] none none true).encoderKills = 0 := by decide

/-- Claim C7 (amended): every job whose wall-clock budget is exceeded
has its status record transition to the error state with the distinct
timeout reason `TIME_LIMIT`, regardless of how far the pipeline
progressed; however the external encoder process is not terminated —
no kill signal is ever sent and the abandoned pipeline keeps
running. -/
theorem c7_timeout_reason_no_kill (env : PipelineEnv) (jobId : List Char)
    (images : List (List Char)) (duration loopCount : Option ℤ) :
    (runJob env jobId images duration loopCount true).record =
      ⟨"error".data, none, some "TIME_LIMIT".data⟩ ∧
    (runJob env jobId images duration loopCount true).encoderKills = 0 := by
  unfold runJob
  exact ⟨rfl, rfl⟩

/-- Claim C9: when the in-memory job record is missing but the
expected output file `video-<id>.mp4` exists under the public video
directory, the poll endpoint still reports status `done` together
with the recoverable video URL. -/
theorem c9_poll_recovers_from_disk (jobs : List (List Char × JobRecord))
    (fileOnDisk : List Char → Option Bool) (id : List Char)
    (hrec : jobs.lookup id = none)
    (hfile : fileOnDisk (videoFilename id) = some true) :
    jobsGet jobs fileOnDisk id =
      ⟨200, true, "done".data, some (videoUrlFor id), none⟩ := by
  unfold jobsGet
  rw [hrec, hfile]

/-- Claim C9 witness. -/
theorem c9_witness :
    (([(("other".data : List Char), (⟨"running".data, none, none⟩ : JobRecord))].lookup
        "abc".data) = none) ∧
    ((fun _ => some true : List Char → Option Bool) (videoFilename "abc".data) = some true) ∧
    jobsGet [("other".data, ⟨"running".data, none, none⟩)] (fun _ => some true) "abc".data =
      ⟨200, true, "done".data, some (videoUrlFor "abc".data), none⟩ :=
  ⟨by decide, rfl,
   c9_poll_recovers_from_disk [("other".data, ⟨"running".data, none, none⟩)]
     (fun _ => some true) "abc".data (by decide) rfl⟩

/-- Claim C10: polling an id with no in-memory record and no output
file on disk answers HTTP 200 with `{ ok: true, status: 'queued' }`;
moreover every poll response whatsoever carries status code 200, so
polling never returns a 404 or an error status and an unknown job is
indistinguishable from a queued one. -/
theorem c10_unknown_id_queued (jobs : List (List Char × JobRecord))
    (fileOnDisk : List Char → Option Bool) (id : List Char)
    (hrec : jobs.lookup id = none)
    (hfile : fileOnDisk (videoFilename id) = some false) :
    jobsGet jobs fileOnDisk id = ⟨200, true, "queued".data, none, none⟩ ∧
    ∀ (jobs' : List (List Char × JobRecord)) (fd' : List Char → Option Bool)
      (id' : List Char), (jobsGet jobs' fd' id').statusCode = 200 := by
  constructor
  · unfold jobsGet
    rw [hrec, hfile]
  · intro jobs' fd' id'
    unfold jobsGet
    repeat' split
    all_goals rfl

/-- Claim C10 witness. -/
theorem c10_witness :
    (([] : List (List Char × JobRecord)).lookup "abc".data = none) ∧
    ((fun _ => some false : List Char → Option Bool) (videoFilename "abc".data) = some false) ∧
    (jobsGet [] (fun _ => some false) "abc".data = ⟨200, true, "queued".data, none, none⟩ ∧
     ∀ (jobs' : List (List Char × JobRecord)) (fd' : List Char → Option Bool)
       (id' : List Char), (jobsGet jobs' fd' id').statusCode = 200) :=
  ⟨rfl, rfl, c10_unknown_id_queued [] (fun _ => some false) "abc".data rfl rfl⟩

/-- Claim C3: for every URL that parses, the resolver tries an
ordered ladder of candidate variant URLs from large to small
resolution token — the ladder chosen by the legacy-path shape test —
ending with the re-serialized original URL (the literal original URL,
as the serialization round-trips) as last resort; it returns the
first candidate whose fetched bytes meet the 5000-byte minimum and
decode as an image, together with that winning candidate URL, and
returns the failure value `none` (not an exception) when the ladder
is exhausted. -/
theorem c3_ladder_first_success (fetch : List Char → Option Buffer) (u : List Char)
    (r : UrlParts) (hp : parseURL u = some r) (hrt : urlToString r = u) :
    buildCandidates u =
      (if hasLegacy r.pathname then [1200, 1000, 800, 640, 500]
       else [1600, 1200, 1000, 800, 500]).map (forceVariant u) ++ [toOriginal57 u, u] ∧
    (buildCandidates u).getLast? = some u ∧
    (∀ c b, goodCandidate fetch c = some b ↔
      fetch c = some b ∧ 5000 ≤ b.byteLength ∧ b.decodable = true) ∧
    ResolverSpec fetch u := by
  have hbc : buildCandidates u =
      (if hasLegacy r.pathname then [1200, 1000, 800, 640, 500]
       else [1600, 1200, 1000, 800, 500]).map (forceVariant u) ++ [toOriginal57 u, u] := by
    simp only [buildCandidates, hp]
    rw [hrt]
  refine ⟨hbc, ?_, fun c b => goodCandidate_iff fetch c b, ?_, ?_⟩
  · rw [hbc]
    have hsplit :
        (if hasLegacy r.pathname then [1200, 1000, 800, 640, 500]
         else [1600, 1200, 1000, 800, 500]).map (forceVariant u) ++ [toOriginal57 u, u] =
        ((if hasLegacy r.pathname then [1200, 1000, 800, 640, 500]
          else [1600, 1200, 1000, 800, 500]).map (forceVariant u) ++ [toOriginal57 u]) ++ [u] := by
      simp
    rw [hsplit, List.getLast?_concat]
  · exact resolveFrom_eq_none_iff fetch (buildCandidates u)
  · intro b c h
    exact resolveFrom_eq_some fetch (buildCandidates u) b c h

/-- Claim C3 witness: with only the third ladder rung reachable,
resolution succeeds and reports that rung as the winning URL. -/
theorem c3_witness :
    (parseURL sampleUrl = some sampleParts) ∧ (urlToString sampleParts = sampleUrl) ∧
    ResolverSpec fetchThirdRung sampleUrl ∧
    resolveImageBuffer fetchThirdRung sampleUrl =
      some (⟨6000, true⟩, forceVariant sampleUrl 1000) :=
  ⟨by decide, by decide,
   (c3_ladder_first_success fetchThirdRung sampleUrl sampleParts (by decide) (by decide)).2.2.2,
   by decide⟩

/-- Claim C8: normalization is idempotent — whenever `normalizeEbayUrl`
accepts a URL and produces `n`, normalizing `n` again returns exactly
`n`, so an already-normalized URL is a fixed point of normalization. -/
theorem c8_normalize_idempotent (u n : List Char) (h : normalizeEbayUrl u = some n) :
    normalizeEbayUrl n = some n := by
  obtain ⟨r, hp, hh, hs, hn⟩ := normalizeEbayUrl_inv h
  have w := parse_wf hp
  have w' := wf_norm_output w
  have hp' : parseURL n =
      some (UrlParts.mk r.scheme r.host (normPathRewrite r.pathname) [] r.frag) := by
    rw [hn]
    exact urlToString_parse w'
  have hh' : hostOkB (UrlParts.mk r.scheme r.host
      (normPathRewrite r.pathname) [] r.frag).host = true := hh
  have hs' : shapeOkB (UrlParts.mk r.scheme r.host
      (normPathRewrite r.pathname) [] r.frag).pathname = true := by
    show shapeOkB (normPathRewrite r.pathname) = true
    rcases normPathRewrite_spec r.pathname with hid | ⟨pre, seg, hpe, hsl, hres, hrw⟩
    · rw [hid]
      exact hs
    · rw [hrw, shapeOkB_transfer rep1600_not_slash hsl, ← hpe]
      exact hs
  have hfinal := normalizeEbayUrl_eq_some hp' hh' hs'
  have hrec : UrlParts.mk r.scheme r.host
        (normPathRewrite (normPathRewrite r.pathname)) [] r.frag =
      UrlParts.mk r.scheme r.host (normPathRewrite r.pathname) [] r.frag :=
    congrArg (fun p => UrlParts.mk r.scheme r.host p [] r.frag)
      (normPathRewrite_idem r.pathname)
  rw [hfinal]
  exact (congrArg (fun rr => some (urlToString rr)) hrec).trans (congrArg some hn.symm)

/-- Claim C8 witness. -/
theorem c8_witness :
    (normalizeEbayUrl sampleUrl =
      some "https://i.ebayimg.com/images/g/a/s-l1600.jpg".data) ∧
    normalizeEbayUrl "https://i.ebayimg.com/images/g/a/s-l1600.jpg".data =
      some "https://i.ebayimg.com/images/g/a/s-l1600.jpg".data :=
  ⟨by decide,
   c8_normalize_idempotent sampleUrl "https://i.ebayimg.com/images/g/a/s-l1600.jpg".data
     (by decide)⟩

/-- Claim C2: two submitted URLs whose only difference is the
resolution token and/or query string collapse to the same normalized
URL, so at most one entry with their dedup key survives
`cleanEbayImages`, and a survivor with that key is always the
normalization of the input appearing first in input order; no two
survivors share a dedup key (key = lower-cased pathname with the
resolution token canonicalized); at most 12 URLs survive, in
first-seen order (the output is an order-preserving sublist of the
normalized input stream), with excess URLs silently dropped; and when
the input list is within the cap of 12 the pair contributes exactly
one surviving entry. -/
theorem c2_clean_dedup_cap (arr : List (List Char)) (u v n : List Char)
    (hd : DiffByToken u v) (hu : u ∈ arr) (hv : v ∈ arr)
    (hn : normalizeEbayUrl u = some n) :
    normalizeEbayUrl v = some n ∧
    (cleanEbayImages arr).countP (fun w => keyOf w == keyOf n) ≤ 1 ∧
    (∀ w ∈ cleanEbayImages arr, keyOf w = keyOf n →
      (arr.filterMap normalizeEbayUrl).find? (fun x => keyOf x == keyOf n) = some w ∧
      (cleanEbayImages arr).countP (fun w2 => keyOf w2 == keyOf n) = 1) ∧
    (cleanEbayImages arr).Pairwise (fun a b => keyOf a ≠ keyOf b) ∧
    (cleanEbayImages arr).length ≤ 12 ∧
    (cleanEbayImages arr).Sublist (arr.filterMap normalizeEbayUrl) ∧
    (arr.length ≤ 12 → ∃ w ∈ cleanEbayImages arr, keyOf w = keyOf n) := by
  have hclean : cleanEbayImages arr =
      (dedupF (arr.filterMap normalizeEbayUrl) []).take 12 := by
    unfold cleanEbayImages
    rw [cleanGo_eq arr [] [] (by norm_num)]
    simp
  have hpair : (cleanEbayImages arr).Pairwise (fun a b => keyOf a ≠ keyOf b) := by
    rw [hclean]
    exact (dedupF_pairwise _ _).sublist (List.take_sublist _ _)
  refine ⟨diffByToken_normalize_eq hd hn, countP_le_one_of_pairwise hpair, ?_, hpair,
    ?_, ?_, ?_⟩
  · intro w hw hkw
    have hw2 : w ∈ dedupF (arr.filterMap normalizeEbayUrl) [] := by
      rw [hclean] at hw
      exact List.mem_of_mem_take hw
    have hfind := dedupF_find w hw2
    rw [hkw] at hfind
    exact ⟨hfind, countP_eq_one_of_mem_pairwise hpair hw hkw⟩
  · rw [hclean]
    exact List.length_take_le _ _
  · rw [hclean]
    exact (List.take_sublist _ _).trans (dedupF_sublist _ _)
  · intro harr
    have hnsmem : n ∈ arr.filterMap normalizeEbayUrl :=
      List.mem_filterMap.mpr ⟨u, hu, hn⟩
    have hkmem : keyOf n ∈ (arr.filterMap normalizeEbayUrl).map keyOf :=
      List.mem_map_of_mem keyOf hnsmem
    obtain ⟨w, hw1, hw2⟩ := dedupF_exists_key (List.not_mem_nil _) hkmem
    have hlen : (dedupF (arr.filterMap normalizeEbayUrl) []).length ≤ 12 :=
      le_trans (dedupF_sublist _ _).length_le
        (le_trans (List.length_filterMap_le _ _) harr)
    rw [hclean, List.take_of_length_le hlen]
    exact ⟨w, hw1, hw2⟩

/-- Claim C2 witness: a concrete three-URL submission where the pair
collapses to one normalized survivor, in first-seen position. -/
theorem c2_witness :
    DiffByToken c2u c2v ∧ c2u ∈ c2arr ∧ c2v ∈ c2arr ∧
    normalizeEbayUrl c2u = some c2n ∧
    normalizeEbayUrl c2v = some c2n ∧
    (cleanEbayImages c2arr).length ≤ 12 ∧
    cleanEbayImages c2arr = [c2n, c2other] := by
  have hdterm : DiffByToken c2u c2v :=
    ⟨c2ru, c2rv, "/images/g/a".data, "s-l500.jpg".data, "w99.jpg".data,
     by decide, by decide, by decide, by decide, by decide, by decide, by decide,
     by decide, by decide, by decide, by decide⟩
  have happ := c2_clean_dedup_cap c2arr c2u c2v c2n hdterm (by decide) (by decide) (by decide)
  exact ⟨hdterm, by decide, by decide, by decide, happ.1, happ.2.2.2.2.1, by decide⟩

end Slidemint
